import Mathlib

/-!
# Verification of the `BoxedUint` core of a heap-allocated big-integer library

Shallow embedding of `src/uint/boxed.rs` and `src/boxed/uint/encoding.rs`:
the fixed-precision heap-allocated big unsigned integer `BoxedUint`, its
constructors, the constant-time selection primitive, the generic carry-chain
combinator, the byte-decoding subsystem and the hex formatting.

The limb primitive (`Limb`) is an external collaborator of this core; it is
modelled from the specification for the 64-bit target: a limb is a 64-bit
machine word, `Limb::BITS = 64`, `Limb::BYTES = 8`.  Panics (assertion
failures and out-of-bounds indexing) are modelled by `Option`: `none` is an
unrecoverable abort.  The fallible decode entry points return
`Except DecodeError BoxedUint`, mirroring Rust's `Result`.
-/

namespace CryptoBigint

/-- A byte of input, as handed to the decoding subsystem (`u8`). -/
abbrev Byte := Fin 256

/-- Modelled from the spec: the limb primitive is an opaque fixed-width
unsigned machine word (32 or 64 bits depending on target); we model the
64-bit target, so a limb value is a natural number (bounded by `2^64` in the
source; none of the operations verified here create larger values from
in-range inputs). -/
abbrev Limb := Nat

/-- A raw machine word; `Limb` is a layout-identical wrapper around it. -/
abbrev Word := Nat

namespace Limb

/-- The constant `Limb::BITS` on the modelled 64-bit target. -/
def BITS : Nat := 64

/-- The constant `Limb::BYTES` on the modelled 64-bit target. -/
def BYTES : Nat := 8

/-- The constant `Limb::ZERO`. -/
def ZERO : Limb := 0

/-- The constant `Limb::ONE`. -/
def ONE : Limb := 1

/-- The constant `Limb::MAX` on the modelled 64-bit target. -/
def MAX : Limb := 2 ^ 64 - 1

/-- Modelled from the spec: the limb primitive's constant-time zero test
(`Limb::is_zero`), returning an oblivious boolean (`Choice`), modelled by
`Bool`. -/
def is_zero (a : Limb) : Bool := a == 0

/-- Modelled from the spec: the limb primitive's constant-time selection
(`Limb::conditional_select`): the first operand when the choice is unset,
the second when it is set. -/
def conditional_select (a b : Limb) (choice : Bool) : Limb :=
  if choice then b else a

/-- Modelled from the spec: the limb primitive's big-endian decode of a
fixed-size byte chunk (`Limb::from_be_slice`). -/
def from_be_slice (chunk : List Byte) : Limb :=
  chunk.foldl (fun acc b => acc * 256 + b.val) 0

/-- Modelled from the spec: the limb primitive's little-endian decode of a
fixed-size byte chunk (`Limb::from_le_slice`). -/
def from_le_slice (chunk : List Byte) : Limb :=
  chunk.foldr (fun b acc => b.val + 256 * acc) 0

end Limb

/-- Lower-case hex digit for a value in `0..16`. -/
def hexDigitLower (n : Nat) : Char :=
  if n < 10 then Char.ofNat (48 + n) else Char.ofNat (87 + n)

/-- Upper-case hex digit for a value in `0..16`. -/
def hexDigitUpper (n : Nat) : Char :=
  if n < 10 then Char.ofNat (48 + n) else Char.ofNat (55 + n)

namespace Limb

/-- Modelled from the spec: the limb primitive's fixed-width lower-hex
formatter (`fmt::LowerHex for Limb`): exactly 16 hex digits on the 64-bit
target, most significant digit first, zero-padded. -/
def lowerHexChars (a : Limb) : List Char :=
  (List.range 16).map (fun i => hexDigitLower (a / 16 ^ (15 - i) % 16))

/-- Modelled from the spec: the limb primitive's fixed-width upper-hex
formatter (`fmt::UpperHex for Limb`). -/
def upperHexChars (a : Limb) : List Char :=
  (List.range 16).map (fun i => hexDigitUpper (a / 16 ^ (15 - i) % 16))

end Limb

/-- Type `BoxedUint` (src/uint/boxed.rs): fixed-precision heap-allocated big
unsigned integer; a boxed slice of limbs stored least significant first. -/
structure BoxedUint where
  limbs : List Limb
  deriving DecidableEq

namespace BoxedUint

/-- Constructor `BoxedUint::zero`: the value `0` represented as succinctly as possible
(the `Default` instance: an empty limb slice). -/
def zero : BoxedUint := ⟨[]⟩

/-- Constructor `BoxedUint::one`: a single limb equal to one. -/
def one : BoxedUint := ⟨[Limb.ONE]⟩

/-- Accessor `BoxedUint::nlimbs`: the number of limbs. -/
def nlimbs (x : BoxedUint) : Nat := x.limbs.length

/-- Constructor `BoxedUint::from_words`: adopt a word sequence directly (each word is
converted to the layout-identical limb). -/
def from_words (words : List Word) : BoxedUint :=
  ⟨words.map (fun w => (w : Limb))⟩

/-- Constructor `BoxedUint::zero_with_precision`: the value `0` with the given number of
bits of precision.  The source asserts that the precision is a multiple of
`Limb::BITS` and panics otherwise; the panic is modelled by `none`. -/
def zero_with_precision (bits_precision : Nat) : Option BoxedUint :=
  if bits_precision % Limb.BITS = 0 then
    some ⟨List.replicate (bits_precision / Limb.BITS) Limb.ZERO⟩
  else
    none

/-- Constructor `BoxedUint::max`: the maximum value for the given number of bits of
precision (all limbs `Limb::MAX`).  The source asserts that the precision is
a multiple of `Limb::BITS` and panics otherwise; the panic is modelled by
`none`. -/
def max (bits_precision : Nat) : Option BoxedUint :=
  if bits_precision % Limb.BITS = 0 then
    some ⟨List.replicate (bits_precision / Limb.BITS) Limb.MAX⟩
  else
    none

/-- Predicate `BoxedUint::is_zero`: fold of the oblivious AND of every limb's zero
test, starting from `Choice::from(1)`. -/
def is_zero (x : BoxedUint) : Bool :=
  x.limbs.foldl (fun acc limb => acc && Limb.is_zero limb) true

/-- Function `BoxedUint::conditional_select`: select every limb of `a` or `b`
independently according to `choice`.  The source guards the equal-length
precondition with `debug_assert_eq!`, active only when debug assertions are
compiled in; the flag `dbg` models that build mode.  The loop runs over
`0..a.nlimbs()` indexing `b.limbs[i]`, which is an out-of-bounds panic when
`b` has fewer limbs than `a`; both panics are modelled by `none`. -/
def conditional_select (dbg : Bool) (a b : BoxedUint) (choice : Bool) :
    Option BoxedUint :=
  if dbg ∧ a.nlimbs ≠ b.nlimbs then
    none
  else if b.nlimbs < a.nlimbs then
    none
  else
    some ⟨(List.range a.nlimbs).map (fun i =>
      Limb.conditional_select (a.limbs.getD i Limb.ZERO)
        (b.limbs.getD i Limb.ZERO) choice)⟩

/-- The loop body of `BoxedUint::chain`: `for i in 0..nlimbs`, read limb `i`
of each operand (`get(i).unwrap_or(&Limb::ZERO)`), apply `f` with the running
carry, push the resulting limb and continue with the returned carry.  `i` is
the current index and `steps` the number of iterations left. -/
def chainLoop (f : Limb → Limb → Limb → Limb × Limb) (la lb : List Limb)
    (carry : Limb) (i : Nat) : Nat → List Limb × Limb
  | 0 => ([], carry)
  | steps + 1 =>
    let a := la.getD i Limb.ZERO
    let b := lb.getD i Limb.ZERO
    let p := f a b carry
    let q := chainLoop f la lb p.2 (i + 1) steps
    (p.1 :: q.1, q.2)

/-- Function `BoxedUint::chain`: carry chain-like operation over the limbs of the
inputs, widened to the width of the widest input, returning the constructed
value together with the final carry. -/
def chain (lhs rhs : BoxedUint) (carry : Limb)
    (f : Limb → Limb → Limb → Limb × Limb) : BoxedUint × Limb :=
  let n := Nat.max lhs.nlimbs rhs.nlimbs
  let r := chainLoop f lhs.limbs rhs.limbs carry 0 n
  (⟨r.1⟩, r.2)

/-- Formatter `fmt::LowerHex for BoxedUint`: an empty limb sequence falls back to
rendering a single zero limb; otherwise every limb is rendered most
significant first through the limb's fixed-width lower-hex formatter. -/
def lowerHexChars (x : BoxedUint) : List Char :=
  if x.limbs.isEmpty then
    Limb.lowerHexChars Limb.ZERO
  else
    (x.limbs.reverse.map Limb.lowerHexChars).flatten

/-- Formatter `fmt::UpperHex for BoxedUint`: an empty limb sequence falls back to
rendering a single zero limb through the limb's LOWER-hex formatter (as the
source does); otherwise every limb is rendered most significant first
through the limb's fixed-width upper-hex formatter. -/
def upperHexChars (x : BoxedUint) : List Char :=
  if x.limbs.isEmpty then
    Limb.lowerHexChars Limb.ZERO
  else
    (x.limbs.reverse.map Limb.upperHexChars).flatten

/-- Formatter `fmt::Display for BoxedUint`: delegates to the upper-hex formatter. -/
def displayChars (x : BoxedUint) : List Char :=
  upperHexChars x

end BoxedUint

/-- Type `DecodeError` (src/boxed/uint/encoding.rs): decoding errors for
`BoxedUint`. -/
inductive DecodeError where
  | InputSize : DecodeError
  | Precision : DecodeError
  deriving DecidableEq

/-- Iterator `slice::chunks(Limb::BYTES)` on the modelled 64-bit target: split a byte
buffer into chunks of 8 bytes; the last chunk may be shorter. -/
def chunksOf : List Byte → List (List Byte)
  | [] => []
  | b0 :: b1 :: b2 :: b3 :: b4 :: b5 :: b6 :: b7 :: rest =>
    [b0, b1, b2, b3, b4, b5, b6, b7] :: chunksOf rest
  | l => [l]

/-- The effect of the decode loops: `src.zip(dst.iter_mut())` with
`*limb = value` overwrites the first `min (src.length) (dst.length)`
elements of `dst` with the corresponding elements of `src` and keeps the
rest of `dst`. -/
def writeZip (src dst : List Limb) : List Limb :=
  src.take dst.length ++ dst.drop src.length

namespace BoxedUint

/-- Decoder `BoxedUint::from_be_slice`: validate the precision, then the byte
length, then fill an all-zero buffer of the requested precision from the
byte chunks consumed in reverse order, each parsed as a big-endian word. -/
def from_be_slice (bytes : List Byte) (bits_precision : Nat) :
    Except DecodeError BoxedUint :=
  if bits_precision % Limb.BITS ≠ 0 then
    Except.error DecodeError.Precision
  else if bytes.length % Limb.BYTES ≠ 0 ∨ bytes.length * 8 > bits_precision then
    Except.error DecodeError.InputSize
  else
    Except.ok ⟨writeZip ((chunksOf bytes).reverse.map Limb.from_be_slice)
      (List.replicate (bits_precision / Limb.BITS) Limb.ZERO)⟩

/-- Decoder `BoxedUint::from_le_slice`: validate the precision, then the byte
length, then fill an all-zero buffer of the requested precision from the
byte chunks consumed in forward order, each parsed as a little-endian
word. -/
def from_le_slice (bytes : List Byte) (bits_precision : Nat) :
    Except DecodeError BoxedUint :=
  if bits_precision % Limb.BITS ≠ 0 then
    Except.error DecodeError.Precision
  else if bytes.length % Limb.BYTES ≠ 0 ∨ bytes.length * 8 > bits_precision then
    Except.error DecodeError.InputSize
  else
    Except.ok ⟨writeZip ((chunksOf bytes).map Limb.from_le_slice)
      (List.replicate (bits_precision / Limb.BITS) Limb.ZERO)⟩

end BoxedUint

/-- Reference characterization of the carry chain, following the spec's
words: a structural two-operand fold that executes one step per limb
position of the longer operand, reads the zero word at every position beyond
an operand's own length, and threads the carry through every step, returning
the final carry. -/
def chainSpec (f : Limb → Limb → Limb → Limb × Limb) :
    List Limb → List Limb → Limb → List Limb × Limb
  | [], [], carry => ([], carry)
  | [], b :: tb, carry =>
    let p := f Limb.ZERO b carry
    let q := chainSpec f [] tb p.2
    (p.1 :: q.1, q.2)
  | a :: ta, [], carry =>
    let p := f a Limb.ZERO carry
    let q := chainSpec f ta [] p.2
    (p.1 :: q.1, q.2)
  | a :: ta, b :: tb, carry =>
    let p := f a b carry
    let q := chainSpec f ta tb p.2
    (p.1 :: q.1, q.2)
  termination_by la lb _ => la.length + lb.length

instance : DecidableEq (Except DecodeError BoxedUint) := fun a b =>
  match a, b with
  | Except.ok x, Except.ok y =>
    if h : x = y then isTrue (by rw [h])
    else isFalse (by intro hh; injection hh; contradiction)
  | Except.error x, Except.error y =>
    if h : x = y then isTrue (by rw [h])
    else isFalse (by intro hh; injection hh; contradiction)
  | Except.ok _, Except.error _ => isFalse (by intro hh; cases hh)
  | Except.error _, Except.ok _ => isFalse (by intro hh; cases hh)

/-- Reading every position of a list through `getD` in index order, over the
range of its length, reproduces the list. -/
theorem list_getD_range (l : List Limb) :
    (List.range l.length).map (fun i => l[i]?.getD Limb.ZERO) = l := by
  induction l with
  | nil => simp
  | cons a t ih =>
    rw [List.length_cons, List.range_succ_eq_map, List.map_cons, List.map_map]
    simp only [Function.comp_def, List.getElem?_cons_zero,
      List.getElem?_cons_succ, Option.getD_some]
    rw [ih]

/-- The fold of the oblivious AND over limb zero tests equals the
accumulator AND-ed with the all-limbs zero test. -/
theorem foldl_and_isZero (l : List Limb) (acc : Bool) :
    l.foldl (fun acc limb => acc && Limb.is_zero limb) acc =
      (acc && l.all (fun limb => limb == 0)) := by
  induction l generalizing acc with
  | nil => simp
  | cons a t ih =>
    rw [List.foldl_cons, ih, List.all_cons]
    simp [Limb.is_zero, Bool.and_assoc]

/-- Bridge between the two spellings of the maximum on naturals. -/
theorem nat_max_eq (a b : Nat) : Nat.max a b = max a b := rfl

/-- The reference chain on an empty left operand yields one limb per limb
of the right operand. -/
theorem chainSpec_nil_length (f : Limb → Limb → Limb → Limb × Limb)
    (lb : List Limb) (c : Limb) :
    (chainSpec f [] lb c).1.length = lb.length := by
  induction lb generalizing c with
  | nil => simp [chainSpec]
  | cons b tb ih => simp [chainSpec, ih]

/-- The reference chain yields exactly one limb per limb position of the
longer operand. -/
theorem chainSpec_length (f : Limb → Limb → Limb → Limb × Limb)
    (la lb : List Limb) (c : Limb) :
    (chainSpec f la lb c).1.length = Nat.max la.length lb.length := by
  induction la generalizing lb c with
  | nil => simp [chainSpec_nil_length]
  | cons a ta ih =>
    cases lb with
    | nil =>
      simp only [chainSpec, List.length_cons, List.length_nil, ih]
      simp only [nat_max_eq]
      omega
    | cons b tb =>
      simp only [chainSpec, List.length_cons, ih]
      simp only [nat_max_eq]
      omega

/-- The indexed loop of `chain`, run for exactly the number of remaining
limb positions, computes the reference chain of the remaining suffixes of
the two operands. -/
theorem chainLoop_eq_chainSpec (f : Limb → Limb → Limb → Limb × Limb)
    (la lb : List Limb) :
    ∀ (steps i : Nat) (carry : Limb),
      steps = Nat.max (la.drop i).length (lb.drop i).length →
      BoxedUint.chainLoop f la lb carry i steps =
        chainSpec f (la.drop i) (lb.drop i) carry := by
  intro steps
  induction steps with
  | zero =>
    intro i carry h
    obtain ⟨h1, h2⟩ := Nat.max_eq_zero_iff.mp h.symm
    rw [List.eq_nil_of_length_eq_zero h1, List.eq_nil_of_length_eq_zero h2]
    simp [BoxedUint.chainLoop, chainSpec]
  | succ steps ih =>
    intro i carry h
    have hga : la.getD i Limb.ZERO = (la.drop i).getD 0 Limb.ZERO := by
      simp [List.getD_eq_getElem?_getD, List.getElem?_drop]
    have hgb : lb.getD i Limb.ZERO = (lb.drop i).getD 0 Limb.ZERO := by
      simp [List.getD_eq_getElem?_getD, List.getElem?_drop]
    have hda : la.drop (i + 1) = (la.drop i).drop 1 := by
      rw [List.drop_drop, Nat.add_comm]
    have hdb : lb.drop (i + 1) = (lb.drop i).drop 1 := by
      rw [List.drop_drop, Nat.add_comm]
    rcases hca : la.drop i with _ | ⟨a, ta⟩ <;>
      rcases hcb : lb.drop i with _ | ⟨b, tb⟩ <;>
      rw [hca, hcb] at h
    · exfalso
      simp [nat_max_eq] at h
    · simp only [BoxedUint.chainLoop]
      rw [hga, hgb, hca, hcb]
      rw [ih (i + 1) _ (by
        rw [hda, hdb, hca, hcb]
        simp only [List.drop_nil, List.drop_one, List.tail_cons,
          List.length_nil, List.length_cons, nat_max_eq] at h ⊢
        omega)]
      rw [hda, hdb, hca, hcb]
      simp [chainSpec]
    · simp only [BoxedUint.chainLoop]
      rw [hga, hgb, hca, hcb]
      rw [ih (i + 1) _ (by
        rw [hda, hdb, hca, hcb]
        simp only [List.drop_nil, List.drop_one, List.tail_cons,
          List.length_nil, List.length_cons, nat_max_eq] at h ⊢
        omega)]
      rw [hda, hdb, hca, hcb]
      simp [chainSpec]
    · simp only [BoxedUint.chainLoop]
      rw [hga, hgb, hca, hcb]
      rw [ih (i + 1) _ (by
        rw [hda, hdb, hca, hcb]
        simp only [List.drop_one, List.tail_cons, List.length_cons,
          nat_max_eq] at h ⊢
        omega)]
      rw [hda, hdb, hca, hcb]
      simp [chainSpec]

/-- C10: calling `zero_with_precision(0)` or `max(0)` does not abort: the
precision-validity assertion passes for a precision of 0 bits (0 is a
multiple of `Limb::BITS`), and both return the zero-limb value equal to
`zero()`. -/
theorem c10_zero_precision_ok :
    BoxedUint.zero_with_precision 0 = some BoxedUint.zero ∧
    BoxedUint.max 0 = some BoxedUint.zero :=
  ⟨rfl, rfl⟩

/-- C1, counterexample: the claim demands a `Precision` failure for `P = 0`
independent of byte content, but a requested precision of 0 bits passes the
precision check (`0 % Limb::BITS == 0`), and decoding the empty buffer at
precision 0 succeeds with the zero-limb value on both entry points. -/
theorem c1_counterexample :
    BoxedUint.from_be_slice [] 0 = Except.ok BoxedUint.zero ∧
    BoxedUint.from_le_slice [] 0 = Except.ok BoxedUint.zero ∧
    BoxedUint.from_be_slice [] 0 ≠ Except.error DecodeError.Precision ∧
    BoxedUint.from_le_slice [] 0 ≠ Except.error DecodeError.Precision :=
  ⟨rfl, rfl, by decide, by decide⟩

/-- C1, amended: for every byte buffer and every requested precision `P`
that is not a multiple of the limb bit width, both `from_be_slice` and
`from_le_slice` fail with the `Precision` error, independent of byte
content.  (`P = 0` is a multiple of the limb bit width and passes the
precision check.) -/
theorem c1_precision_rejected (bytes : List Byte) (P : Nat)
    (h : P % Limb.BITS ≠ 0) :
    BoxedUint.from_be_slice bytes P = Except.error DecodeError.Precision ∧
    BoxedUint.from_le_slice bytes P = Except.error DecodeError.Precision := by
  constructor <;> simp [BoxedUint.from_be_slice, BoxedUint.from_le_slice, h]

/-- C1, witness: precision 127 is rejected with `Precision` on a 16-byte
buffer. -/
theorem c1_witness :
    BoxedUint.from_be_slice (List.replicate 16 (0 : Byte)) 127 =
      Except.error DecodeError.Precision ∧
    BoxedUint.from_le_slice (List.replicate 16 (0 : Byte)) 127 =
      Except.error DecodeError.Precision :=
  c1_precision_rejected (List.replicate 16 (0 : Byte)) 127 (by decide)

/-- C6, counterexample: the claim demands an `InputSize` failure whenever
the byte length is not a multiple of the limb byte width, for every
requested precision; but the precision check runs first, so a 1-byte buffer
at precision 4 fails with `Precision`, not `InputSize`, on both entry
points. -/
theorem c6_counterexample :
    BoxedUint.from_be_slice [0] 4 = Except.error DecodeError.Precision ∧
    BoxedUint.from_le_slice [0] 4 = Except.error DecodeError.Precision ∧
    BoxedUint.from_be_slice [0] 4 ≠ Except.error DecodeError.InputSize ∧
    BoxedUint.from_le_slice [0] 4 ≠ Except.error DecodeError.InputSize :=
  ⟨rfl, rfl, by decide, by decide⟩

/-- C6, amended: for every byte buffer and every requested precision `P`
that passes the precision check (`P` a multiple of the limb bit width),
decode (both `from_be_slice` and `from_le_slice`) fails with the `InputSize`
error whenever the byte length is not a multiple of the limb byte width or
`8 * len(bytes) > P`. -/
theorem c6_inputsize_rejected (bytes : List Byte) (P : Nat)
    (hp : P % Limb.BITS = 0)
    (hlen : bytes.length % Limb.BYTES ≠ 0 ∨ bytes.length * 8 > P) :
    BoxedUint.from_be_slice bytes P = Except.error DecodeError.InputSize ∧
    BoxedUint.from_le_slice bytes P = Except.error DecodeError.InputSize := by
  constructor <;>
    simp [BoxedUint.from_be_slice, BoxedUint.from_le_slice, hp, hlen]

/-- C6, witness: a 1-byte buffer at precision 64 is rejected with
`InputSize` on both entry points. -/
theorem c6_witness :
    BoxedUint.from_be_slice [0] 64 = Except.error DecodeError.InputSize ∧
    BoxedUint.from_le_slice [0] 64 = Except.error DecodeError.InputSize :=
  c6_inputsize_rejected [0] 64 (by decide) (by decide)

/-- C4: for every pair of operands with equal limb counts, in either build
mode and for every selector value, `conditional_select` returns the first
operand when the selector is false and the second when it is true,
limb-by-limb (here: as a whole value, since all limbs are selected). -/
theorem c4_select_equal_length (dbg : Bool) (a b : BoxedUint) (choice : Bool)
    (h : a.nlimbs = b.nlimbs) :
    BoxedUint.conditional_select dbg a b choice =
      some (if choice then b else a) := by
  obtain ⟨la⟩ := a
  obtain ⟨lb⟩ := b
  simp only [BoxedUint.nlimbs] at h
  unfold BoxedUint.conditional_select
  rw [if_neg (by simp [BoxedUint.nlimbs, h]),
    if_neg (by simp [BoxedUint.nlimbs, h])]
  cases choice
  · simp [Limb.conditional_select, BoxedUint.nlimbs, list_getD_range]
  · simp [Limb.conditional_select, BoxedUint.nlimbs, h, list_getD_range]

/-- C4, witness: selecting between two concrete 2-limb values with selector
true yields the second value. -/
theorem c4_witness :
    BoxedUint.conditional_select true ⟨[1, 2]⟩ ⟨[3, 4]⟩ true =
      some (if true then (⟨[3, 4]⟩ : BoxedUint) else ⟨[1, 2]⟩) :=
  c4_select_equal_length true ⟨[1, 2]⟩ ⟨[3, 4]⟩ true (by decide)

/-- C5, counterexample: the claim demands an unrecoverable abort whenever
the operands' limb counts differ, never returning a value; but the length
precondition is only a `debug_assert`, so in a build without debug
assertions, selecting between a 1-limb value and a 2-limb value returns a
value instead of aborting. -/
theorem c5_counterexample :
    (⟨[1]⟩ : BoxedUint).nlimbs ≠ (⟨[2, 3]⟩ : BoxedUint).nlimbs ∧
    BoxedUint.conditional_select false ⟨[1]⟩ ⟨[2, 3]⟩ true = some ⟨[2]⟩ :=
  ⟨by decide, rfl⟩

/-- C5, amended: when `conditional_select` is called on operands `a` and `b`
whose limb counts differ, then in a build with debug assertions it aborts;
in a build without them it aborts (out-of-bounds indexing) exactly when `b`
has fewer limbs than `a`, and when `b` has more limbs than `a` it returns a
value with `a`'s limb count instead of aborting. -/
theorem c5_mismatch_behavior (a b : BoxedUint) (choice : Bool)
    (h : a.nlimbs ≠ b.nlimbs) :
    BoxedUint.conditional_select true a b choice = none ∧
    (b.nlimbs < a.nlimbs →
      BoxedUint.conditional_select false a b choice = none) ∧
    (a.nlimbs < b.nlimbs → ∃ v,
      BoxedUint.conditional_select false a b choice = some v ∧
      v.nlimbs = a.nlimbs) := by
  refine ⟨?_, ?_, ?_⟩
  · unfold BoxedUint.conditional_select
    rw [if_pos ⟨rfl, h⟩]
  · intro hlt
    unfold BoxedUint.conditional_select
    rw [if_neg (by simp), if_pos hlt]
  · intro hlt
    unfold BoxedUint.conditional_select
    rw [if_neg (by simp), if_neg (by omega)]
    exact ⟨_, rfl, by simp [BoxedUint.nlimbs]⟩

/-- C5, witness: the amended behavior at a concrete mismatched pair (a
1-limb value and a 2-limb value). -/
theorem c5_witness :
    BoxedUint.conditional_select true ⟨[1]⟩ ⟨[2, 3]⟩ true = none ∧
    ((⟨[2, 3]⟩ : BoxedUint).nlimbs < (⟨[1]⟩ : BoxedUint).nlimbs →
      BoxedUint.conditional_select false ⟨[1]⟩ ⟨[2, 3]⟩ true = none) ∧
    ((⟨[1]⟩ : BoxedUint).nlimbs < (⟨[2, 3]⟩ : BoxedUint).nlimbs → ∃ v,
      BoxedUint.conditional_select false ⟨[1]⟩ ⟨[2, 3]⟩ true = some v ∧
      v.nlimbs = (⟨[1]⟩ : BoxedUint).nlimbs) :=
  c5_mismatch_behavior ⟨[1]⟩ ⟨[2, 3]⟩ true (by decide)

/-- C8: `is_zero()` returns true if and only if every limb equals the zero
word; in particular it returns true for `zero()` (the empty limb sequence)
and for the value built by `zero_with_precision(P)` for every valid `P`. -/
theorem c8_is_zero_iff :
    (∀ x : BoxedUint, x.is_zero = true ↔ ∀ limb ∈ x.limbs, limb = Limb.ZERO) ∧
    BoxedUint.is_zero BoxedUint.zero = true ∧
    (∀ P : Nat, P % Limb.BITS = 0 →
      ∃ z, BoxedUint.zero_with_precision P = some z ∧ z.is_zero = true) := by
  refine ⟨?_, rfl, ?_⟩
  · intro x
    rw [BoxedUint.is_zero, foldl_and_isZero]
    simp [List.all_eq_true, Limb.ZERO]
  · intro P hP
    refine ⟨⟨List.replicate (P / Limb.BITS) Limb.ZERO⟩,
      by simp [BoxedUint.zero_with_precision, hP], ?_⟩
    rw [BoxedUint.is_zero, foldl_and_isZero]
    simp [List.all_eq_true, List.mem_replicate, Limb.ZERO]

/-- C8, witness: `zero_with_precision(128)` is built without aborting and
its `is_zero()` is true. -/
theorem c8_witness :
    ∃ z, BoxedUint.zero_with_precision 128 = some z ∧ z.is_zero = true :=
  c8_is_zero_iff.2.2 128 (by decide)

/-- C2: for every pair of operands (possibly of different limb counts),
every initial carry and every per-limb function `f`, `chain` computes
exactly the reference chain — one step per limb position of the longer
operand, reading the zero limb at every position beyond an operand's own
length, threading the carry through every step — produces a result with
exactly `max(nlimbs(lhs), nlimbs(rhs))` limbs, and returns the final carry
to the caller as the second component rather than discarding it. -/
theorem c2_chain (lhs rhs : BoxedUint) (carry : Limb)
    (f : Limb → Limb → Limb → Limb × Limb) :
    BoxedUint.chain lhs rhs carry f =
      (⟨(chainSpec f lhs.limbs rhs.limbs carry).1⟩,
        (chainSpec f lhs.limbs rhs.limbs carry).2) ∧
    (BoxedUint.chain lhs rhs carry f).1.nlimbs =
      Nat.max lhs.nlimbs rhs.nlimbs := by
  have key := chainLoop_eq_chainSpec f lhs.limbs rhs.limbs
    (Nat.max lhs.nlimbs rhs.nlimbs) 0 carry
    (by simp [BoxedUint.nlimbs])
  simp only [List.drop_zero] at key
  constructor
  · rw [BoxedUint.chain, key]
  · rw [BoxedUint.chain, key]
    simp [BoxedUint.nlimbs, chainSpec_length]

/-- Unfolding equation of `chunksOf` at a buffer of at least 8 bytes. -/
theorem chunksOf_cons8 (b0 b1 b2 b3 b4 b5 b6 b7 : Byte) (rest : List Byte) :
    chunksOf (b0 :: b1 :: b2 :: b3 :: b4 :: b5 :: b6 :: b7 :: rest) =
      [b0, b1, b2, b3, b4, b5, b6, b7] :: chunksOf rest := rfl

/-- A byte buffer whose length is a multiple of 8 is empty or starts with a
full 8-byte chunk whose remainder again has length a multiple of 8. -/
theorem length_mod8_cases (l : List Byte) (h : l.length % 8 = 0) :
    l = [] ∨ ∃ b0 b1 b2 b3 b4 b5 b6 b7 rest,
      l = b0 :: b1 :: b2 :: b3 :: b4 :: b5 :: b6 :: b7 :: rest ∧
      rest.length % 8 = 0 := by
  rcases l with _ | ⟨b0, _ | ⟨b1, _ | ⟨b2, _ | ⟨b3, _ | ⟨b4, _ | ⟨b5,
    _ | ⟨b6, _ | ⟨b7, rest⟩⟩⟩⟩⟩⟩⟩⟩
  · exact Or.inl rfl
  all_goals simp only [List.length_cons, List.length_nil] at h
  any_goals (exfalso; omega)
  exact Or.inr ⟨b0, b1, b2, b3, b4, b5, b6, b7, rest, rfl, by omega⟩

/-- Auxiliary, fuel-based form: chunking distributes over append when the
first part's length is a multiple of the chunk size. -/
theorem chunksOf_append_fuel (n : Nat) :
    ∀ (x y : List Byte), x.length ≤ n → x.length % 8 = 0 →
      chunksOf (x ++ y) = chunksOf x ++ chunksOf y := by
  induction n with
  | zero =>
    intro x y hn _
    have hx : x = [] := List.eq_nil_of_length_eq_zero (by omega)
    subst hx
    simp [chunksOf]
  | succ n ih =>
    intro x y hn h
    rcases length_mod8_cases x h with rfl | ⟨b0, b1, b2, b3, b4, b5, b6, b7,
      rest, rfl, hr⟩
    · simp [chunksOf]
    · simp only [List.cons_append, chunksOf_cons8]
      rw [ih rest y (by simp only [List.length_cons] at hn; omega) hr]

/-- Chunking distributes over append when the first part's length is a
multiple of the chunk size. -/
theorem chunksOf_append (x y : List Byte) (h : x.length % 8 = 0) :
    chunksOf (x ++ y) = chunksOf x ++ chunksOf y :=
  chunksOf_append_fuel x.length x y le_rfl h

/-- Auxiliary, fuel-based form: a buffer whose length is a multiple of 8
splits into `length / 8` chunks. -/
theorem chunksOf_length_fuel (n : Nat) :
    ∀ x : List Byte, x.length ≤ n → x.length % 8 = 0 →
      (chunksOf x).length = x.length / 8 := by
  induction n with
  | zero =>
    intro x hn _
    have hx : x = [] := List.eq_nil_of_length_eq_zero (by omega)
    subst hx
    simp [chunksOf]
  | succ n ih =>
    intro x hn h
    rcases length_mod8_cases x h with rfl | ⟨b0, b1, b2, b3, b4, b5, b6, b7,
      rest, rfl, hr⟩
    · simp [chunksOf]
    · rw [chunksOf_cons8, List.length_cons,
        ih rest (by simp only [List.length_cons] at hn; omega) hr]
      simp only [List.length_cons]
      omega

/-- A buffer whose length is a multiple of 8 splits into `length / 8`
chunks. -/
theorem chunksOf_length (x : List Byte) (h : x.length % 8 = 0) :
    (chunksOf x).length = x.length / 8 :=
  chunksOf_length_fuel x.length x le_rfl h

/-- Auxiliary, fuel-based form: the chunks of a reversed buffer are the
reversed chunks of the buffer, each itself reversed. -/
theorem chunksOf_reverse_fuel (n : Nat) :
    ∀ x : List Byte, x.length ≤ n → x.length % 8 = 0 →
      chunksOf x.reverse = ((chunksOf x).map List.reverse).reverse := by
  induction n with
  | zero =>
    intro x hn _
    have hx : x = [] := List.eq_nil_of_length_eq_zero (by omega)
    subst hx
    simp [chunksOf]
  | succ n ih =>
    intro x hn h
    rcases length_mod8_cases x h with rfl | ⟨b0, b1, b2, b3, b4, b5, b6, b7,
      rest, rfl, hr⟩
    · simp [chunksOf]
    · have hxrev :
          (b0 :: b1 :: b2 :: b3 :: b4 :: b5 :: b6 :: b7 :: rest).reverse =
            rest.reverse ++ [b7, b6, b5, b4, b3, b2, b1, b0] := by
        simp
      rw [hxrev, chunksOf_append rest.reverse _ (by simp [hr]),
        ih rest (by simp only [List.length_cons] at hn; omega) hr,
        chunksOf_cons8]
      simp [chunksOf]

/-- The chunks of a reversed buffer are the reversed chunks of the buffer,
each itself reversed. -/
theorem chunksOf_reverse (x : List Byte) (h : x.length % 8 = 0) :
    chunksOf x.reverse = ((chunksOf x).map List.reverse).reverse :=
  chunksOf_reverse_fuel x.length x le_rfl h

/-- Little-endian decode of a reversed chunk equals big-endian decode of the
chunk. -/
theorem limb_from_le_reverse (c : List Byte) :
    Limb.from_le_slice c.reverse = Limb.from_be_slice c := by
  rw [Limb.from_le_slice, Limb.from_be_slice, List.foldr_reverse]
  suffices hgen : ∀ (l : List Byte) (acc : Nat),
      l.foldl (fun x y => y.val + 256 * x) acc =
        l.foldl (fun x y => x * 256 + y.val) acc from hgen c 0
  intro l
  induction l with
  | nil => intro acc; rfl
  | cons d t ih =>
    intro acc
    simp only [List.foldl_cons]
    rw [show d.val + 256 * acc = acc * 256 + d.val by ring, ih]

/-- C3: for every byte buffer `B` and precision `P` accepted by both decode
entry points, decoding the byte-reversed buffer little-endian equals
decoding the original buffer big-endian. -/
theorem c3_endianness (bytes : List Byte) (P : Nat)
    (hp : P % Limb.BITS = 0) (hlen : bytes.length % Limb.BYTES = 0)
    (hsz : bytes.length * 8 ≤ P) :
    BoxedUint.from_le_slice bytes.reverse P =
      BoxedUint.from_be_slice bytes P := by
  have hlen8 : bytes.length % 8 = 0 := hlen
  rw [BoxedUint.from_le_slice, BoxedUint.from_be_slice]
  simp only [List.length_reverse]
  rw [if_neg (show ¬P % Limb.BITS ≠ 0 by simp [hp])]
  rw [if_neg (show ¬(bytes.length % Limb.BYTES ≠ 0 ∨ bytes.length * 8 > P) by
    push_neg
    exact ⟨hlen, hsz⟩)]
  rw [if_neg (show ¬P % Limb.BITS ≠ 0 by simp [hp])]
  rw [if_neg (show ¬(bytes.length % Limb.BYTES ≠ 0 ∨ bytes.length * 8 > P) by
    push_neg
    exact ⟨hlen, hsz⟩)]
  have hfn : (Limb.from_le_slice ∘ List.reverse) = Limb.from_be_slice :=
    funext limb_from_le_reverse
  rw [chunksOf_reverse bytes hlen8, List.map_reverse, List.map_reverse,
    List.map_map, hfn]

/-- C3, witness: an 8-byte buffer decoded little-endian after reversal
equals its big-endian decoding at precision 128. -/
theorem c3_witness :
    BoxedUint.from_le_slice
        (List.reverse [0x00, 0x11, 0x22, 0x33, 0x44, 0x55, 0x66, 0x77]) 128 =
      BoxedUint.from_be_slice
        [0x00, 0x11, 0x22, 0x33, 0x44, 0x55, 0x66, 0x77] 128 :=
  c3_endianness [0x00, 0x11, 0x22, 0x33, 0x44, 0x55, 0x66, 0x77] 128
    (by decide) (by decide) (by decide)

/-- Reading with a default inside the left part of an append. -/
theorem getD_append_lt (src tail : List Limb) (i : Nat) (h : i < src.length) :
    (src ++ tail).getD i Limb.ZERO = src.getD i Limb.ZERO := by
  rw [List.getD_eq_getElem?_getD, List.getD_eq_getElem?_getD,
    List.getElem?_append_left h]

/-- Reading with a default inside (or beyond) a replicated-zero tail. -/
theorem getD_append_replicate (src : List Limb) (k i : Nat)
    (h : src.length ≤ i) :
    (src ++ List.replicate k Limb.ZERO).getD i Limb.ZERO = Limb.ZERO := by
  rw [List.getD_eq_getElem?_getD, List.getElem?_append_right h,
    List.getElem?_replicate]
  split <;> rfl

/-- Reading a mapped chunk list with a default, inside bounds. -/
theorem getD_map_chunks (f : List Byte → Limb) (l : List (List Byte))
    (i : Nat) (h : i < l.length) :
    (l.map f).getD i Limb.ZERO = f (l.getD i []) := by
  rw [List.getD_eq_getElem?_getD, List.getD_eq_getElem?_getD,
    List.getElem?_map, List.getElem?_eq_getElem h]
  simp

/-- Reading a reversed chunk list with a default, inside bounds. -/
theorem getD_reverse_chunks (l : List (List Byte)) (i : Nat)
    (h : i < l.length) :
    l.reverse.getD i ([] : List Byte) = l.getD (l.length - 1 - i) [] := by
  rw [List.getD_eq_getElem?_getD, List.getD_eq_getElem?_getD,
    List.getElem?_reverse h]

/-- C7: for every valid byte buffer `B` and valid precision `P` with
`8 * len(B) < P`, both decodes succeed, the result has `P / limb_bit_width`
limbs, every limb position beyond the supplied byte length is exactly zero,
and the low-order limbs match the supplied bytes chunk-by-chunk: for
big-endian decode the chunk nearest the end of the buffer maps to limb index
0 and each chunk is parsed as a big-endian word; for little-endian decode
chunks map in forward order parsed as little-endian words. -/
theorem c7_short_input (bytes : List Byte) (P : Nat)
    (hp : P % Limb.BITS = 0) (hlen : bytes.length % Limb.BYTES = 0)
    (hsz : bytes.length * 8 < P) :
    ∃ v w, BoxedUint.from_be_slice bytes P = Except.ok v ∧
      BoxedUint.from_le_slice bytes P = Except.ok w ∧
      v.nlimbs = P / Limb.BITS ∧ w.nlimbs = P / Limb.BITS ∧
      (∀ i, i < bytes.length / Limb.BYTES →
        v.limbs.getD i Limb.ZERO =
          Limb.from_be_slice
            ((chunksOf bytes).getD (bytes.length / Limb.BYTES - 1 - i) []) ∧
        w.limbs.getD i Limb.ZERO =
          Limb.from_le_slice ((chunksOf bytes).getD i [])) ∧
      (∀ i, bytes.length / Limb.BYTES ≤ i →
        v.limbs.getD i Limb.ZERO = Limb.ZERO ∧
        w.limbs.getD i Limb.ZERO = Limb.ZERO) := by
  have hlen8 : bytes.length % 8 = 0 := hlen
  have hdvd : 8 * (bytes.length / 8) = bytes.length :=
    Nat.mul_div_cancel' (Nat.dvd_of_mod_eq_zero hlen8)
  have hdvdP : 64 * (P / 64) = P :=
    Nat.mul_div_cancel' (Nat.dvd_of_mod_eq_zero hp)
  have hmn : bytes.length / 8 < P / 64 := by omega
  have hm : (chunksOf bytes).length = bytes.length / 8 :=
    chunksOf_length bytes hlen8
  have hsrc_be :
      ((chunksOf bytes).reverse.map Limb.from_be_slice).length =
        bytes.length / 8 := by
    simp [hm]
  have hsrc_le :
      ((chunksOf bytes).map Limb.from_le_slice).length =
        bytes.length / 8 := by
    simp [hm]
  have hwz_be :
      writeZip ((chunksOf bytes).reverse.map Limb.from_be_slice)
          (List.replicate (P / Limb.BITS) Limb.ZERO) =
        (chunksOf bytes).reverse.map Limb.from_be_slice ++
          List.replicate (P / Limb.BITS - bytes.length / 8) Limb.ZERO := by
    rw [writeZip, List.length_replicate,
      List.take_of_length_le (by rw [hsrc_be]; exact le_of_lt hmn), hsrc_be,
      List.drop_replicate]
  have hwz_le :
      writeZip ((chunksOf bytes).map Limb.from_le_slice)
          (List.replicate (P / Limb.BITS) Limb.ZERO) =
        (chunksOf bytes).map Limb.from_le_slice ++
          List.replicate (P / Limb.BITS - bytes.length / 8) Limb.ZERO := by
    rw [writeZip, List.length_replicate,
      List.take_of_length_le (by rw [hsrc_le]; exact le_of_lt hmn), hsrc_le,
      List.drop_replicate]
  have hbe : BoxedUint.from_be_slice bytes P =
      Except.ok ⟨writeZip ((chunksOf bytes).reverse.map Limb.from_be_slice)
        (List.replicate (P / Limb.BITS) Limb.ZERO)⟩ := by
    rw [BoxedUint.from_be_slice,
      if_neg (show ¬P % Limb.BITS ≠ 0 by simp [hp]),
      if_neg (show ¬(bytes.length % Limb.BYTES ≠ 0 ∨
          bytes.length * 8 > P) by
        push_neg
        exact ⟨hlen, le_of_lt hsz⟩)]
  have hle : BoxedUint.from_le_slice bytes P =
      Except.ok ⟨writeZip ((chunksOf bytes).map Limb.from_le_slice)
        (List.replicate (P / Limb.BITS) Limb.ZERO)⟩ := by
    rw [BoxedUint.from_le_slice,
      if_neg (show ¬P % Limb.BITS ≠ 0 by simp [hp]),
      if_neg (show ¬(bytes.length % Limb.BYTES ≠ 0 ∨
          bytes.length * 8 > P) by
        push_neg
        exact ⟨hlen, le_of_lt hsz⟩)]
  refine ⟨_, _, hbe, hle, ?_, ?_, ?_, ?_⟩
  · simp only [BoxedUint.nlimbs, hwz_be]
    simp only [List.length_append, hsrc_be, List.length_replicate, Limb.BITS]
    omega
  · simp only [BoxedUint.nlimbs, hwz_le]
    simp only [List.length_append, hsrc_le, List.length_replicate, Limb.BITS]
    omega
  · intro i hi
    constructor
    · simp only [hwz_be]
      rw [getD_append_lt _ _ i (by rw [hsrc_be]; exact hi),
        getD_map_chunks _ _ i (by simp [hm]; exact hi),
        getD_reverse_chunks _ i (by rw [hm]; exact hi), hm]
      rfl
    · simp only [hwz_le]
      rw [getD_append_lt _ _ i (by rw [hsrc_le]; exact hi),
        getD_map_chunks _ _ i (by rw [hm]; exact hi)]
  · intro i hi
    constructor
    · simp only [hwz_be]
      exact getD_append_replicate _ _ i (by rw [hsrc_be]; exact hi)
    · simp only [hwz_le]
      exact getD_append_replicate _ _ i (by rw [hsrc_le]; exact hi)

/-- C7, witness: decoding the 8-byte buffer `[1..8]` at precision 192 in
both byte orders: one data limb and two zero limbs. -/
theorem c7_witness :
    ∃ v w, BoxedUint.from_be_slice [1, 2, 3, 4, 5, 6, 7, 8] 192 =
        Except.ok v ∧
      BoxedUint.from_le_slice [1, 2, 3, 4, 5, 6, 7, 8] 192 = Except.ok w ∧
      v.nlimbs = 192 / Limb.BITS ∧ w.nlimbs = 192 / Limb.BITS ∧
      (∀ i, i < (8 : Nat) / Limb.BYTES →
        v.limbs.getD i Limb.ZERO =
          Limb.from_be_slice
            ((chunksOf [1, 2, 3, 4, 5, 6, 7, 8]).getD
              ((8 : Nat) / Limb.BYTES - 1 - i) []) ∧
        w.limbs.getD i Limb.ZERO =
          Limb.from_le_slice ((chunksOf [1, 2, 3, 4, 5, 6, 7, 8]).getD i [])) ∧
      (∀ i, (8 : Nat) / Limb.BYTES ≤ i →
        v.limbs.getD i Limb.ZERO = Limb.ZERO ∧
        w.limbs.getD i Limb.ZERO = Limb.ZERO) :=
  c7_short_input [1, 2, 3, 4, 5, 6, 7, 8] 192 (by decide) (by decide)
    (by decide)

/-- C9: the zero-length limb sequence (`zero()`) formats identically to a
value consisting of a single zero limb in lower-hex, upper-hex and the
default textual rendering, and the default textual rendering of every value
is identical to its upper-hex rendering. -/
theorem c9_formatting :
    BoxedUint.lowerHexChars BoxedUint.zero =
      BoxedUint.lowerHexChars (BoxedUint.from_words [0]) ∧
    BoxedUint.upperHexChars BoxedUint.zero =
      BoxedUint.upperHexChars (BoxedUint.from_words [0]) ∧
    BoxedUint.displayChars BoxedUint.zero =
      BoxedUint.displayChars (BoxedUint.from_words [0]) ∧
    ∀ x : BoxedUint, x.displayChars = x.upperHexChars :=
  ⟨by decide, by decide, by decide, fun _ => rfl⟩

end CryptoBigint
